import Mathlib

/-!
Verification development for the Nephio O-RAN agent orchestrator
(`orchestration/orchestrator.py`) and the workflow hand-off validator
(`workflow-validation.py`).

The Python source is shallowly embedded: dictionaries become association
lists with insertion-order upsert, the subprocess boundary becomes an
explicit process-behaviour record, file-system effects become explicit
operation lists, and the YAML loader becomes an oracle value (the loader
itself is an external library; everything after the load is embedded from
the source).  Timestamps and logging are elided: no claim depends on them.
-/

namespace NephioSpec

/-! ## Python-value model for the output-contract parser

`execute_agent` (orchestrator.py lines 80-121) post-processes the value
returned by `yaml.safe_load`.  That value is an arbitrary Python object:
`None`, a string, a number, a list, or a dict.  `PyVal` models exactly
those shapes. -/

inductive PyVal where
  | pyNone : PyVal
  | str : String → PyVal
  | num : Int → PyVal
  | list : List PyVal → PyVal
  | dict : List (String × PyVal) → PyVal

/-- Result of `yaml.safe_load` on the (possibly fenced-block-extracted)
text: either the library raised `yaml.YAMLError`, or it produced a value.
The loader is an external library, so it enters the embedding as an
oracle value rather than as code. -/
inductive LoadResult where
  | yamlError : LoadResult
  | ok : PyVal → LoadResult

/-- Python string containment used by `field in output` when `output` is a
`str`: substring test.  `leadMatch n h` is true when `n` is an initial
segment of `h`. -/
def leadMatch : List Char → List Char → Bool
  | [], _ => true
  | _ :: _, [] => false
  | c :: cs, d :: ds => c == d && leadMatch cs ds

def subSearch (needle : List Char) : List Char → Bool
  | [] => leadMatch needle []
  | c :: cs => leadMatch needle (c :: cs) || subSearch needle cs

def pyInStr (needle hay : String) : Bool :=
  subSearch needle.toList hay.toList

/-- Python `==` between a list element and a string literal. -/
def pyEqStr (v : PyVal) (s : String) : Bool :=
  match v with
  | .str t => t == s
  | _ => false

/-- The Python membership test `field in output` (orchestrator.py line 93).
For a dict it is key membership, for a list element equality, for a string
a substring test; for `None` or a number it raises `TypeError`, which is
modelled as `Except.error` with the interpreter message. -/
def pyContains (field : String) : PyVal → Except String Bool
  | .dict kvs => .ok (kvs.any fun kv => kv.1 == field)
  | .list xs => .ok (xs.any fun x => pyEqStr x field)
  | .str s => .ok (pyInStr field s)
  | .pyNone => .error "argument of type NoneType is not iterable"
  | .num _ => .error "argument of type int is not iterable"

/-- Python `result.stdout[:500]` (orchestrator.py lines 97 and 105). -/
def strTake (s : String) (n : Nat) : String :=
  ⟨s.toList.take n⟩

/-- Synthetic warning record for output that loaded but lacks a required
field (orchestrator.py lines 94-98). -/
def incompleteWarning (raw : String) : PyVal :=
  .dict [("status", .str "warning"),
         ("summary", .str "Agent executed but output format incomplete"),
         ("raw_output", .str (strTake raw 500))]

/-- Synthetic warning record for text that `yaml.safe_load` rejected
(orchestrator.py lines 100-106). -/
def nonYamlWarning (raw : String) : PyVal :=
  .dict [("status", .str "warning"),
         ("summary", .str "Agent executed but output not in YAML format"),
         ("raw_output", .str (strTake raw 500))]

/-- Required-field validation, orchestrator.py lines 91-98.  Mirrors the
short-circuit evaluation of `all(field in output for field in
required_fields)`; a `TypeError` raised by the membership test propagates
(only `yaml.YAMLError` is caught by the inner handler). -/
def validateRequired (v : PyVal) (raw : String) : Except String PyVal := do
  let hasStatus ← pyContains "status" v
  if hasStatus then
    let hasSummary ← pyContains "summary" v
    if hasSummary then pure v else pure (incompleteWarning raw)
  else
    pure (incompleteWarning raw)

/-- The output-contract parsing step of `execute_agent`, orchestrator.py
lines 80-106, as a function of the loader outcome and the raw stdout.
An uncaught exception (the `TypeError` from the membership test) surfaces
as `Except.error`. -/
def parse_agent_output (load : LoadResult) (raw : String) : Except String PyVal :=
  match load with
  | .yamlError => pure (nonYamlWarning raw)
  | .ok v => validateRequired v raw

/-- What the caller of the parsing step actually receives: an exception
escaping lines 80-106 is caught by the generic handler at orchestrator.py
lines 116-121, which replaces the output with a `status="error"` record. -/
def execute_agent_parsed (load : LoadResult) (raw : String) : PyVal :=
  match parse_agent_output load raw with
  | .ok v => v
  | .error msg =>
      .dict [("status", .str "error"),
             ("summary", .str ("Failed to execute agent: " ++ msg))]

/-! ## File-system effects -/

/-- Primitive file operations performed by the orchestrator.  `openTrunc`
models `open(path, "w")` (which truncates the file on open), `writeAll`
the subsequent full write, `rename` an atomic rename (present in the
model so that the atomic-save claim is statable, never emitted by the
embedded code). -/
inductive FileOp where
  | openTrunc : String → FileOp
  | writeAll : String → String → FileOp
  | rename : String → String → FileOp
deriving DecidableEq

def FileOp.isRename : FileOp → Bool
  | .rename _ _ => true
  | _ => false

/-- A file system, as path-to-contents association. -/
abbrev FS := List (String × String)

def dictInsertS (k v : String) : FS → FS
  | [] => [(k, v)]
  | (k₁, v₁) :: rest =>
      if k₁ == k then (k, v) :: rest else (k₁, v₁) :: dictInsertS k v rest

def fsLookup (p : String) : FS → Option String
  | [] => none
  | (k, v) :: rest => if k == p then some v else fsLookup p rest

def fsRemove (p : String) : FS → FS
  | [] => []
  | (k, v) :: rest => if k == p then fsRemove p rest else (k, v) :: fsRemove p rest

def applyOp (fs : FS) : FileOp → FS
  | .openTrunc p => dictInsertS p "" fs
  | .writeAll p s => dictInsertS p s fs
  | .rename src dst =>
      match fsLookup src fs with
      | some c => dictInsertS dst c (fsRemove src fs)
      | none => fs

/-- Contents of `target` observable by a concurrent reader: its contents
before the operations run and after each individual operation. -/
def observables (fs : FS) (ops : List FileOp) (target : String) : List String :=
  ((ops.scanl applyOp fs).map fun f => (fsLookup target f).getD "")

/-! ## Workflow data model (orchestrator.py) -/

/-- One entry of a workflow definition `stages` list.  `critical` is an
`Option` because `run_workflow` reads it with `stage.get("critical",
True)` (line 366), i.e. the key may be absent. -/
structure StageSpec where
  name : String
  agent : String
  task : String
  timeout : Nat
  critical : Option Bool
deriving DecidableEq

structure Workflow where
  name : String
  description : String
  stages : List StageSpec
deriving DecidableEq

/-- The structured record the run loop reads out of a stage output:
`status`, `summary`, and the optional `artifacts` and `handoff_to` keys
(the only keys `run_workflow` inspects). -/
structure AgentOutput where
  status : String
  summary : String
  artifacts : Option (List String) := none
  handoff_to : Option String := none
deriving DecidableEq

/-- Value stored under `state["stages"][stage_name]` (orchestrator.py
lines 350-356); wall-clock fields are elided. -/
structure StageData where
  agent : String
  task : String
  output : AgentOutput
deriving DecidableEq

/-- The mutable workflow state dict (orchestrator.py lines 26-32). -/
structure WfState where
  workflow_id : String
  status : String
  stages : List (String × StageData)
  artifacts : List (String × List String)
deriving DecidableEq

def initState (wid : String) : WfState :=
  { workflow_id := wid, status := "running", stages := [], artifacts := [] }

/-- Python dict assignment `d[k] = v`: replace in place if the key exists
(keeping its position), else append. -/
def dictInsert {α : Type} (k : String) (v : α) :
    List (String × α) → List (String × α)
  | [] => [(k, v)]
  | (k₁, v₁) :: rest =>
      if k₁ == k then (k, v) :: rest else (k₁, v₁) :: dictInsert k v rest

def keys {α : Type} (l : List (String × α)) : List String := l.map (·.1)

def countKey {α : Type} (k : String) (l : List (String × α)) : Nat :=
  (l.filter fun p => p.1 == k).length

/-! ## execute_agent (orchestrator.py lines 46-121)

The subprocess boundary is modelled by a `ProcRun`: how long the external
`claude code` invocation would take and what it prints.  `execute_agent`
passes a hard-coded `timeout=300` to `subprocess.run` (line 72); the
process times out exactly when its duration exceeds that bound, in which
case the raw-output file is never written (the write at lines 75-78 sits
after the call) and the synthesized record of lines 110-115 is returned.
The context side-file write (lines 51-56) is elided. -/

structure ProcRun where
  duration : Nat
  stdout : String
deriving DecidableEq

/-- The timeout passed to `subprocess.run`, orchestrator.py line 72.
It is a fixed constant; `execute_agent` has no timeout parameter and
never reads the stage timeout. -/
def subprocessTimeout : Nat := 300

/-- Per-stage raw output file, orchestrator.py line 76:
`state_dir / f"{agent}-output.txt"` — the name depends on the agent
only, not on the stage name. -/
def raw_output_file (state_dir agent : String) : String :=
  state_dir ++ "/" ++ agent ++ "-output.txt"

def timeoutRecord : PyVal :=
  .dict [("status", .str "error"),
         ("summary", .str "Agent execution timed out after 5 minutes")]

structure ExecResult where
  invocations : Nat
  ops : List FileOp
  output : PyVal

/-- `execute_agent`, orchestrator.py lines 46-121, for a given process
behaviour and loader outcome.  `invocations` counts `subprocess.run`
calls (there is no retry path in the source). -/
def execute_agent (state_dir agent _task : String) (proc : ProcRun)
    (load : LoadResult) : ExecResult :=
  if subprocessTimeout < proc.duration then
    { invocations := 1, ops := [], output := timeoutRecord }
  else
    { invocations := 1,
      ops := [FileOp.writeAll (raw_output_file state_dir agent) proc.stdout],
      output := execute_agent_parsed load proc.stdout }

/-! ## save_state (orchestrator.py lines 123-127) -/

/-- The single state-file location, keyed by the workflow id
(`state_dir = ~/.claude-workflows/<workflow_id>`, file `state.json`). -/
def statePath (wid : String) : String :=
  wid ++ "/state.json"

/-- Deterministic rendering of the whole state record, standing for
`json.dump(self.state, f, indent=2)`: every field of the snapshot is
included.  (Brace-free rendering; the exact JSON syntax is irrelevant to
the claims.) -/
def serializeOutput (o : AgentOutput) : String :=
  "status=" ++ o.status ++ ";summary=" ++ o.summary ++
  ";artifacts=" ++ toString (o.artifacts.getD []) ++
  ";handoff_to=" ++ (o.handoff_to.getD "null")

def serializeStage (p : String × StageData) : String :=
  p.1 ++ ":agent=" ++ p.2.agent ++ ";task=" ++ p.2.task ++
  ";output=[" ++ serializeOutput p.2.output ++ "]"

def serializeState (st : WfState) : String :=
  "workflow_id=" ++ st.workflow_id ++
  ";status=" ++ st.status ++
  ";stages=[" ++ String.intercalate "|" (st.stages.map serializeStage) ++
  "];artifacts=[" ++
  String.intercalate "|" (st.artifacts.map fun p => p.1 ++ ":" ++ toString p.2) ++
  "]"

/-- `save_state`: open `state.json` for writing (truncating it) and write
the serialized state.  There is no temporary file and no rename in the
source. -/
def save_stateOps (st : WfState) : List FileOp :=
  [FileOp.openTrunc (statePath st.workflow_id),
   FileOp.writeAll (statePath st.workflow_id) (serializeState st)]

/-! ## Built-in workflow catalog (orchestrator.py lines 150-310) -/

def get_deployment_workflow : Workflow :=
  { name := "complete-deployment",
    description := "End-to-end O-RAN deployment with Nephio R5",
    stages :=
      [⟨"infrastructure", "nephio-infrastructure-agent",
        "provision O-Cloud infrastructure with 3 nodes for edge deployment",
        600, some true⟩,
       ⟨"dependencies", "oran-nephio-dep-doctor",
        "validate all dependencies and check compatibility", 300, some true⟩,
       ⟨"configuration", "configuration-management-agent",
        "apply YANG models and Kpt packages for O-RAN components", 450, some true⟩,
       ⟨"network-functions", "oran-network-functions-agent",
        "deploy O-RAN CU, DU, and RU network functions", 900, some true⟩,
       ⟨"monitoring", "monitoring-analytics-agent",
        "setup comprehensive observability and monitoring", 300, some false⟩,
       ⟨"optimization", "performance-optimization-agent",
        "apply initial performance optimizations", 600, some false⟩] }

def get_troubleshooting_workflow : Workflow :=
  { name := "troubleshooting",
    description := "Identify and resolve O-RAN issues",
    stages :=
      [⟨"diagnosis", "monitoring-analytics-agent",
        "analyze system metrics and identify issues", 300, some true⟩,
       ⟨"root-cause", "performance-optimization-agent",
        "perform root cause analysis on identified issues", 450, some true⟩,
       ⟨"remediation", "configuration-management-agent",
        "apply configuration fixes based on root cause analysis", 300, some true⟩,
       ⟨"verification", "monitoring-analytics-agent",
        "verify that issues are resolved", 300, some true⟩] }

def get_validation_workflow : Workflow :=
  { name := "validation",
    description := "Validate security and compliance",
    stages :=
      [⟨"security-scan", "security-compliance-agent",
        "perform comprehensive security assessment", 600, some true⟩,
       ⟨"dependency-check", "oran-nephio-dep-doctor",
        "validate all dependencies for vulnerabilities", 300, some true⟩,
       ⟨"performance-baseline", "performance-optimization-agent",
        "establish performance baselines and validate SLAs", 450, some false⟩] }

def get_upgrade_workflow : Workflow :=
  { name := "upgrade",
    description := "Upgrade O-RAN components",
    stages :=
      [⟨"pre-check", "oran-nephio-dep-doctor",
        "validate upgrade compatibility and dependencies", 300, some true⟩,
       ⟨"backup", "configuration-management-agent",
        "backup current configurations and state", 300, some true⟩,
       ⟨"upgrade-infra", "nephio-infrastructure-agent",
        "upgrade infrastructure components", 600, some true⟩,
       ⟨"upgrade-nf", "oran-network-functions-agent",
        "upgrade network functions to new versions", 900, some true⟩,
       ⟨"validate", "monitoring-analytics-agent",
        "validate upgrade success and system health", 300, some true⟩] }

/-- The built-in branch of `load_workflow` (orchestrator.py lines
131-140); custom definition files are external input. -/
def load_builtin_workflow (name : String) : Option Workflow :=
  if name == "deploy" then some get_deployment_workflow
  else if name == "troubleshoot" then some get_troubleshooting_workflow
  else if name == "validate" then some get_validation_workflow
  else if name == "upgrade" then some get_upgrade_workflow
  else none

/-! ## The run loop (orchestrator.py lines 312-390)

The executor is abstracted as a function from `(agent, task, context)` to
the structured record the loop reads back — the subprocess plus parser
pipeline, which the claims about the loop quantify over. -/

structure Ctx where
  workflow : String
  stage : String
  previous_stages : List String
  previous_outputs : Option (List (String × String))
deriving DecidableEq

/-- Context built at orchestrator.py lines 331-342: `previous_outputs`
is added only when at least one stage has completed. -/
def mkContext (wname stageName : String) (st : WfState) : Ctx :=
  { workflow := wname,
    stage := stageName,
    previous_stages := keys st.stages,
    previous_outputs :=
      if st.stages.isEmpty then none
      else some (st.stages.map fun p => (p.1, p.2.output.summary)) }

/-- Observable events of a run: executor invocations, stage-result
recordings, and state persistences. -/
inductive Ev where
  | invoke : String → Ev
  | record : String → Ev
  | save : WfState → Ev
deriving DecidableEq

/-- State after recording one stage result (orchestrator.py lines
350-360): the stage entry is written unconditionally; the artifacts
entry only when the output has a non-empty `artifacts` value. -/
def recordStage (s : StageSpec) (out : AgentOutput) (st : WfState) : WfState :=
  { st with
    stages := dictInsert s.name ⟨s.agent, s.task, out⟩ st.stages,
    artifacts :=
      match out.artifacts with
      | some arts => if arts.isEmpty then st.artifacts
                     else dictInsert s.name arts st.artifacts
      | none => st.artifacts }

/-- The stage loop of `run_workflow` (orchestrator.py lines 327-390).
Per stage: build the context, invoke the executor, record the result,
persist, then classify the status: an error from a stage whose spec says
`critical` (default `true` via `stage.get("critical", True)`) sets
`status="failed"`, persists, and returns immediately; anything else
continues.  After the last stage, `status="completed"` is set and
persisted. -/
def runStages (exec : String → String → Ctx → AgentOutput) (wname : String) :
    List StageSpec → WfState → WfState × List Ev
  | [], st =>
      let stF := { st with status := "completed" }
      (stF, [Ev.save stF])
  | s :: rest, st =>
      let ctx := mkContext wname s.name st
      let out := exec s.agent s.task ctx
      let st₁ := recordStage s out st
      let evs₀ := [Ev.invoke s.name, Ev.record s.name, Ev.save st₁]
      if out.status == "error" && s.critical.getD true then
        let st₂ := { st₁ with status := "failed" }
        (st₂, evs₀ ++ [Ev.save st₂])
      else
        let r := runStages exec wname rest st₁
        (r.1, evs₀ ++ r.2)

/-- `run_workflow` on an already-resolved stage list, starting from the
freshly created state of `__init__`. -/
def run_workflow (exec : String → String → Ctx → AgentOutput)
    (wname wid : String) (stages : List StageSpec) : WfState × List Ev :=
  runStages exec wname stages (initState wid)

/-! ## Hand-off graph validator (workflow-validation.py) -/

/-- workflow-validation.py lines 11-16. -/
structure Agent where
  name : String
  accepts_from : List String
  hands_off_to : Option String
  workflow_stage : Int
deriving DecidableEq

/-- The agent table passed to the validator: a dict from agent name to
`Agent`, as an insertion-ordered association list. -/
abbrev AgentTable := List (String × Agent)

def lookupA (name : String) : AgentTable → Option Agent
  | [] => none
  | (k, a) :: rest => if k == name then some a else lookupA name rest

/-- The canonical workflow order, workflow-validation.py lines 23-34. -/
def canonical_workflow : List (String × Int) :=
  [("nephio-infrastructure-agent", 1),
   ("oran-nephio-dep-doctor-agent", 2),
   ("configuration-management-agent", 3),
   ("oran-network-functions-agent", 4),
   ("monitoring-analytics-agent", 5),
   ("data-analytics-agent", 6),
   ("performance-optimization-agent", 7),
   ("testing-validation-agent", 8),
   ("security-compliance-agent", 0),
   ("oran-nephio-orchestrator-agent", 0)]

def lookupI (name : String) : List (String × Int) → Option Int
  | [] => none
  | (k, v) :: rest => if k == name then some v else lookupI name rest

/-- `self.canonical_workflow.get(name, 0)` (lines 100-101). -/
def canonicalStage (name : String) : Int :=
  (lookupI name canonical_workflow).getD 0

/-- The single outgoing edge followed by the cycle detector
(workflow-validation.py lines 77-78): present only when the agent is in
the table and its `hands_off_to` is truthy (not `None`, not empty). -/
def succOf (agents : AgentTable) (name : String) : Option String :=
  match lookupA name agents with
  | some a =>
      match a.hands_off_to with
      | some t => if t == "" then none else some t
      | none => none
  | none => none

/-- Result of one depth-first exploration.  `fuelOut` is an artefact of
the fuel-indexed embedding; `dfs_ne_fuelOut` below shows it is never
reached at the fuel `detect_circular_dependency` supplies. -/
inductive DfsRes where
  | found : List String → DfsRes
  | done : DfsRes
  | fuelOut : DfsRes
deriving DecidableEq

/-- The recursive `dfs` of `detect_circular_dependency`
(workflow-validation.py lines 65-84).  The recursion stack is exactly the
set of elements of `path`, so the `rec_stack` membership test becomes a
`path` membership test; `visited` persists across calls and is threaded
through the result. -/
def dfs (agents : AgentTable) :
    Nat → List String → List String → String → List String × DfsRes
  | 0, visited, _, _ => (visited, .fuelOut)
  | fuel + 1, visited, path, name =>
      if name ∈ path then
        (visited, .found (path.drop (path.indexOf name) ++ [name]))
      else if name ∈ visited then
        (visited, .done)
      else
        let visited₁ := name :: visited
        match succOf agents name with
        | some nxt => dfs agents fuel visited₁ (path ++ [name]) nxt
        | none => (visited₁, .done)

/-- Every name the traversal can ever reach: the table keys (the roots of
the outer loop) together with every declared hand-off target. -/
def tableNames (agents : AgentTable) : List String :=
  (agents.map (·.1)) ++ (agents.filterMap fun p => p.2.hands_off_to)

/-- Fuel sufficient for the whole traversal: one more than the number of
distinct reachable names (each recursive step marks a fresh name
visited). -/
def dfsFuel (agents : AgentTable) : Nat :=
  (tableNames agents).toFinset.card + 1

/-- The outer loop of `detect_circular_dependency` (workflow-validation.py
lines 86-92): start a depth-first exploration at every not-yet-visited
table key, in table order. -/
def detectGo (agents : AgentTable) : List String → List String → DfsRes
  | [], _ => .done
  | k :: ks, visited =>
      if k ∈ visited then detectGo agents ks visited
      else
        match dfs agents (dfsFuel agents) visited [] k with
        | (_, .found c) => .found c
        | (v, .done) => detectGo agents ks v
        | (_, .fuelOut) => .fuelOut

/-- `detect_circular_dependency` (workflow-validation.py lines 60-92). -/
def detect_circular_dependency (agents : AgentTable) : Option (List String) :=
  match detectGo agents (agents.map (·.1)) [] with
  | .found c => some c
  | _ => none

/-- A list is a genuine cycle of the hand-off graph: at least two
entries, first and last entry coincide, and each consecutive pair is a
declared (truthy) hand-off edge of the table. -/
def isCycleOf (agents : AgentTable) (c : List String) : Prop :=
  2 ≤ c.length ∧ c.head? = c.getLast? ∧
    c.Chain' (fun a b => succOf agents a = some b)

/-! ## validate_workflow_progression (workflow-validation.py lines 94-111) -/

/-- The violation message appended at workflow-validation.py line 109. -/
def progressionError (agentName target : String) (fromStage toStage : Int) : String :=
  agentName ++ " (stage " ++ toString fromStage ++ ") cannot handoff to " ++
  target ++ " (stage " ++ toString toStage ++ ") - violates progression"

/-- Per-entry check of `validate_workflow_progression`: a violation is
flagged for an entry with a truthy, non-"null" hand-off whose source is
not one of the two name-exempt agents, when the target stage is nonzero,
not greater than the source stage, and the target is not
"testing-validation-agent". -/
def stageViolation (p : String × Agent) : Option String :=
  match p.2.hands_off_to with
  | none => none
  | some t =>
      if t == "" || t == "null" then none
      else
        let fromStage := canonicalStage p.1
        let toStage := canonicalStage t
        if p.1 == "oran-nephio-orchestrator-agent" ||
           p.1 == "security-compliance-agent" then none
        else if toStage ≠ 0 ∧ toStage ≤ fromStage ∧
                t ≠ "testing-validation-agent" then
          some (progressionError p.1 t fromStage toStage)
        else none

/-- `validate_workflow_progression`: all violations, in table order. -/
def validate_workflow_progression (agents : AgentTable) : List String :=
  agents.filterMap stageViolation

/-- The claim-side violation predicate, written from the specification
words alone (for the refinement comparison with `stageViolation`): a
declared hand-off from a non-stage-0-exempt source is a violation exactly
when the target stage is not strictly greater than the source stage and
the target is not the designated terminal agent.  The spec does not
exempt stage-0 targets. -/
def specViolation (p : String × Agent) : Prop :=
  ∃ t, p.2.hands_off_to = some t ∧ t ≠ "" ∧ t ≠ "null" ∧
    canonicalStage p.1 ≠ 0 ∧
    ¬ (canonicalStage p.1 < canonicalStage t) ∧
    t ≠ "testing-validation-agent"

instance (p : String × Agent) : Decidable (specViolation p) := by
  unfold specViolation
  cases p.2.hands_off_to with
  | none =>
      exact .isFalse (by rintro ⟨t, h, -⟩; cases h)
  | some t₀ =>
      by_cases h : t₀ ≠ "" ∧ t₀ ≠ "null" ∧ canonicalStage p.1 ≠ 0 ∧
          ¬ (canonicalStage p.1 < canonicalStage t₀) ∧
          t₀ ≠ "testing-validation-agent"
      · exact .isTrue ⟨t₀, rfl, h.1, h.2.1, h.2.2.1, h.2.2.2.1, h.2.2.2.2⟩
      · exact .isFalse (by
          rintro ⟨t, ht, h1, h2, h3, h4, h5⟩
          cases ht
          exact h ⟨h1, h2, h3, h4, h5⟩)

/-- The amended violation predicate for `validate_workflow_progression`:
like `specViolation` but with the two behaviours the source actually has —
the two cross-cutting agents are skipped by name, and a target whose
canonical stage is 0 is never flagged. -/
def amendedViolation (p : String × Agent) : Prop :=
  ∃ t, p.2.hands_off_to = some t ∧ t ≠ "" ∧ t ≠ "null" ∧
    p.1 ≠ "oran-nephio-orchestrator-agent" ∧
    p.1 ≠ "security-compliance-agent" ∧
    canonicalStage t ≠ 0 ∧
    canonicalStage t ≤ canonicalStage p.1 ∧
    t ≠ "testing-validation-agent"

instance (p : String × Agent) : Decidable (amendedViolation p) := by
  unfold amendedViolation
  cases p.2.hands_off_to with
  | none =>
      exact .isFalse (by rintro ⟨t, h, -⟩; cases h)
  | some t₀ =>
      by_cases h : t₀ ≠ "" ∧ t₀ ≠ "null" ∧
          p.1 ≠ "oran-nephio-orchestrator-agent" ∧
          p.1 ≠ "security-compliance-agent" ∧
          canonicalStage t₀ ≠ 0 ∧
          canonicalStage t₀ ≤ canonicalStage p.1 ∧
          t₀ ≠ "testing-validation-agent"
      · exact .isTrue ⟨t₀, rfl, h.1, h.2.1, h.2.2.1, h.2.2.2.1,
          h.2.2.2.2.1, h.2.2.2.2.2.1, h.2.2.2.2.2.2⟩
      · exact .isFalse (by
          rintro ⟨t, ht, h1, h2, h3, h4, h5, h6, h7⟩
          cases ht
          exact h ⟨h1, h2, h3, h4, h5, h6, h7⟩)

/-- Message produced for an entry satisfying `amendedViolation`. -/
def vioMsg (p : String × Agent) : String :=
  progressionError p.1 (p.2.hands_off_to.getD "")
    (canonicalStage p.1) (canonicalStage (p.2.hands_off_to.getD ""))

/-! ## Concrete inputs used by witnesses and counterexamples -/

/-- Executor that always reports an error. -/
def exErr : String → String → Ctx → AgentOutput :=
  fun _ _ _ => { status := "error", summary := "boom" }

/-- Executor that errors exactly for the agent named "na". -/
def exMixed : String → String → Ctx → AgentOutput :=
  fun agent _ _ =>
    if agent == "na" then { status := "error", summary := "noncritical failure" }
    else { status := "success", summary := "ok" }

def stA : StageSpec := ⟨"A", "agA", "task A", 60, some true⟩
def stB : StageSpec := ⟨"B", "agB", "task B", 60, some true⟩
def stC : StageSpec := ⟨"C", "agC", "task C", 60, none⟩
def stN : StageSpec := ⟨"N", "na", "task N", 60, some false⟩
def stA9 : StageSpec := ⟨"A9", "agA", "task A9", 60, none⟩

def agX : Agent := ⟨"X", [], some "Y", 1⟩
def agY : Agent := ⟨"Y", [], some "Z", 2⟩
def agZ : Agent := ⟨"Z", [], some "X", 3⟩
def agZend : Agent := ⟨"Z", [], none, 3⟩

/-- The table X → Y → Z → X. -/
def cycTbl : AgentTable := [("X", agX), ("Y", agY), ("Z", agZ)]

/-- The table X → Y → Z → none. -/
def chnTbl : AgentTable := [("X", agX), ("Y", agY), ("Z", agZend)]

/-- A table whose only edge dangles: the target is absent from the table. -/
def danglingTbl : AgentTable := [("A", ⟨"A", [], some "Ghost", 1⟩)]

/-- Hand-off from a stage-3 agent to a stage-0 (cross-cutting) agent:
flagged by the specification predicate, ignored by the source. -/
def zeroTargetEntry : String × Agent :=
  ("configuration-management-agent",
   ⟨"configuration-management-agent", [], some "security-compliance-agent", 3⟩)

def zeroTargetTbl : AgentTable := [zeroTargetEntry]

/-- Stage 3 hands off to stage 2: a genuine progression violation. -/
def down2Tbl : AgentTable :=
  [("configuration-management-agent",
    ⟨"configuration-management-agent", [], some "oran-nephio-dep-doctor-agent", 3⟩)]

/-- Stage 3 hands off to stage 5: allowed. -/
def up5Tbl : AgentTable :=
  [("configuration-management-agent",
    ⟨"configuration-management-agent", [], some "monitoring-analytics-agent", 3⟩)]

/-- Two simultaneous violations (stage 3 → 2 and stage 4 → 3): the
validator must report both. -/
def twoVioTbl : AgentTable :=
  [("configuration-management-agent",
    ⟨"configuration-management-agent", [], some "oran-nephio-dep-doctor-agent", 3⟩),
   ("oran-network-functions-agent",
    ⟨"oran-network-functions-agent", [], some "configuration-management-agent", 4⟩)]

/-! ## Helper lemmas: dictionaries -/

theorem mem_keys_dictInsert_self {α : Type} (k : String) (v : α) (l : List (String × α)) :
    k ∈ keys (dictInsert k v l) := by
  induction l with
  | nil => simp [dictInsert, keys]
  | cons p rest ih =>
      by_cases hp : p.1 = k
      · have hk : (p.1 == k) = true := beq_iff_eq.mpr hp
        simp [dictInsert, hk, keys]
      · have hk : (p.1 == k) = false := beq_eq_false_iff_ne.mpr hp
        simp only [dictInsert, hk, Bool.false_eq_true, if_false, keys,
          List.map_cons, List.mem_cons]
        exact Or.inr (by simpa [keys] using ih)

theorem mem_keys_dictInsert_of_mem {α : Type} {a k : String} {v : α}
    {l : List (String × α)} (h : a ∈ keys l) : a ∈ keys (dictInsert k v l) := by
  induction l with
  | nil => simp [keys] at h
  | cons p rest ih =>
      simp only [keys, List.map_cons, List.mem_cons] at h
      by_cases hp : p.1 = k
      · have hk : (p.1 == k) = true := beq_iff_eq.mpr hp
        simp only [dictInsert, hk, if_true, keys, List.map_cons, List.mem_cons]
        rcases h with h | h
        · exact Or.inl (by rw [h, hp])
        · exact Or.inr (by simpa [keys] using h)
      · have hk : (p.1 == k) = false := beq_eq_false_iff_ne.mpr hp
        simp only [dictInsert, hk, Bool.false_eq_true, if_false, keys,
          List.map_cons, List.mem_cons]
        rcases h with h | h
        · exact Or.inl h
        · exact Or.inr (by simpa [keys] using ih (by simpa [keys] using h))

theorem not_mem_keys_dictInsert {α : Type} {a k : String} {v : α}
    {l : List (String × α)} (hne : a ≠ k) (h : a ∉ keys l) :
    a ∉ keys (dictInsert k v l) := by
  induction l with
  | nil => simp [dictInsert, keys, hne]
  | cons p rest ih =>
      simp only [keys, List.map_cons, List.mem_cons, not_or] at h
      by_cases hp : p.1 = k
      · have hk : (p.1 == k) = true := beq_iff_eq.mpr hp
        simp only [dictInsert, hk, if_true, keys, List.map_cons, List.mem_cons,
          not_or]
        exact ⟨hne, h.2⟩
      · have hk : (p.1 == k) = false := beq_eq_false_iff_ne.mpr hp
        simp only [dictInsert, hk, Bool.false_eq_true, if_false, keys,
          List.map_cons, List.mem_cons, not_or]
        exact ⟨h.1, by simpa [keys] using ih h.2⟩

theorem countKey_dictInsert_of_not_mem {α : Type} {k : String} {v : α}
    {l : List (String × α)} (h : k ∉ keys l) :
    countKey k (dictInsert k v l) = 1 := by
  induction l with
  | nil => simp [dictInsert, countKey]
  | cons p rest ih =>
      simp only [keys, List.map_cons, List.mem_cons, not_or] at h
      have hk : (p.1 == k) = false := beq_eq_false_iff_ne.mpr
        (fun hp => h.1 hp.symm)
      simp only [dictInsert, hk, Bool.false_eq_true, if_false, countKey,
        List.filter_cons, hk]
      exact ih h.2

/-! ## Helper lemmas: the run loop -/

theorem runStages_snd_ne_nil (exec : String → String → Ctx → AgentOutput)
    (w : String) (L : List StageSpec) (st : WfState) :
    (runStages exec w L st).2 ≠ [] := by
  cases L with
  | nil => simp [runStages]
  | cons s rest =>
      simp only [runStages]
      split <;> simp

theorem runStages_getLast_save (exec : String → String → Ctx → AgentOutput)
    (w : String) :
    ∀ (L : List StageSpec) (st : WfState),
      (runStages exec w L st).2.getLast? = some (Ev.save (runStages exec w L st).1) := by
  intro L
  induction L with
  | nil => intro st; simp [runStages]
  | cons s rest ih =>
      intro st
      simp only [runStages]
      split
      · simp [List.getLast?_concat]
      · have h := runStages_snd_ne_nil exec w rest (recordStage s (exec s.agent s.task (mkContext w s.name st)) st)
        simp only [List.getLast?_append_of_ne_nil _ h]
        exact ih _

theorem runStages_keys_mono (exec : String → String → Ctx → AgentOutput)
    (w : String) :
    ∀ (L : List StageSpec) (st : WfState) (k : String),
      k ∈ keys st.stages → k ∈ keys (runStages exec w L st).1.stages := by
  intro L
  induction L with
  | nil => intro st k h; simpa [runStages] using h
  | cons s rest ih =>
      intro st k h
      have h₁ : k ∈ keys (recordStage s (exec s.agent s.task (mkContext w s.name st)) st).stages := by
        simpa [recordStage] using mem_keys_dictInsert_of_mem h
      simp only [runStages]
      split
      · simpa [recordStage] using h₁
      · exact ih _ k h₁

theorem runStages_cons_halt (exec : String → String → Ctx → AgentOutput)
    (w : String) (s : StageSpec) (L : List StageSpec) (st : WfState)
    (hcond : ((exec s.agent s.task (mkContext w s.name st)).status == "error"
        && s.critical.getD true) = true) :
    runStages exec w (s :: L) st =
      ({ recordStage s (exec s.agent s.task (mkContext w s.name st)) st with
          status := "failed" },
       [Ev.invoke s.name, Ev.record s.name,
        Ev.save (recordStage s (exec s.agent s.task (mkContext w s.name st)) st),
        Ev.save { recordStage s (exec s.agent s.task (mkContext w s.name st)) st with
          status := "failed" }]) := by
  simp only [runStages, hcond, if_true, List.append_eq, List.cons_append,
    List.nil_append]

theorem runStages_cons_continue (exec : String → String → Ctx → AgentOutput)
    (w : String) (s : StageSpec) (L : List StageSpec) (st : WfState)
    (hcond : ((exec s.agent s.task (mkContext w s.name st)).status == "error"
        && s.critical.getD true) = false) :
    runStages exec w (s :: L) st =
      ((runStages exec w L
          (recordStage s (exec s.agent s.task (mkContext w s.name st)) st)).1,
       Ev.invoke s.name :: Ev.record s.name ::
        Ev.save (recordStage s (exec s.agent s.task (mkContext w s.name st)) st) ::
        (runStages exec w L
          (recordStage s (exec s.agent s.task (mkContext w s.name st)) st)).2) := by
  simp only [runStages, hcond, Bool.false_eq_true, if_false, List.append_eq,
    List.cons_append, List.nil_append]

/-- Core halting argument: if every critical stage before `s` is
guaranteed not to report an error, `s` is critical (by flag or by
default) and always reports an error, then the run over
`pre ++ s :: post` fails, records `s` exactly once, persists the failed
state last, and produces no invocation or recording event for any name
other than `s` and the `pre` names. -/
theorem runStages_halt (exec : String → String → Ctx → AgentOutput)
    (w : String) (s : StageSpec) (post : List StageSpec)
    (hcrit : s.critical.getD true = true)
    (herr : ∀ ctx, (exec s.agent s.task ctx).status = "error") :
    ∀ (pre : List StageSpec) (st : WfState),
      (∀ t ∈ pre, t.critical.getD true = true →
        ∀ ctx, (exec t.agent t.task ctx).status ≠ "error") →
      s.name ∉ keys st.stages →
      s.name ∉ pre.map StageSpec.name →
      (runStages exec w (pre ++ s :: post) st).1.status = "failed" ∧
      countKey s.name (runStages exec w (pre ++ s :: post) st).1.stages = 1 ∧
      (runStages exec w (pre ++ s :: post) st).2.getLast? =
        some (Ev.save (runStages exec w (pre ++ s :: post) st).1) ∧
      ∀ n, n ≠ s.name → n ∉ pre.map StageSpec.name →
        Ev.invoke n ∉ (runStages exec w (pre ++ s :: post) st).2 ∧
        Ev.record n ∉ (runStages exec w (pre ++ s :: post) st).2 := by
  intro pre
  induction pre with
  | nil =>
      intro st _ hknotin _
      have hst : (exec s.agent s.task (mkContext w s.name st)).status = "error" :=
        herr _
      have hcond : ((exec s.agent s.task (mkContext w s.name st)).status == "error"
          && s.critical.getD true) = true := by
        simp [hst, hcrit]
      rw [List.nil_append, runStages_cons_halt exec w s post st hcond]
      refine ⟨rfl, ?_, ?_, ?_⟩
      · simpa [recordStage] using countKey_dictInsert_of_not_mem hknotin
      · simp [List.getLast?]
      · intro n hne _
        simp [hne]
  | cons t pre' ih =>
      intro st hpre hknotin hpnotin
      have hcond : ((exec t.agent t.task (mkContext w t.name st)).status == "error"
          && t.critical.getD true) = false := by
        rcases Bool.eq_false_or_eq_true
            ((exec t.agent t.task (mkContext w t.name st)).status == "error") with hs | hs
        · have hserr : (exec t.agent t.task (mkContext w t.name st)).status = "error" :=
            beq_iff_eq.mp hs
          have hc : t.critical.getD true = false := by
            rcases Bool.eq_false_or_eq_true (t.critical.getD true) with hc | hc
            · exact absurd hserr (hpre t (List.mem_cons_self t pre') hc _)
            · exact hc
          simp [hc]
        · simp [hs]
      have hsplit : s.name ≠ t.name ∧ s.name ∉ pre'.map StageSpec.name := by
        simpa [not_or] using hpnotin
      have hknotin' : s.name ∉
          keys (recordStage t (exec t.agent t.task (mkContext w t.name st)) st).stages := by
        simpa [recordStage] using not_mem_keys_dictInsert hsplit.1 hknotin
      obtain ⟨ih1, ih2, ih3, ih4⟩ :=
        ih (recordStage t (exec t.agent t.task (mkContext w t.name st)) st)
          (fun u hu => hpre u (List.mem_cons_of_mem t hu)) hknotin' hsplit.2
      rw [List.cons_append, runStages_cons_continue exec w t (pre' ++ s :: post) st hcond]
      refine ⟨ih1, ih2, ?_, ?_⟩
      · have hne := runStages_snd_ne_nil exec w (pre' ++ s :: post)
          (recordStage t (exec t.agent t.task (mkContext w t.name st)) st)
        calc (Ev.invoke t.name :: Ev.record t.name ::
              Ev.save (recordStage t (exec t.agent t.task (mkContext w t.name st)) st) ::
              (runStages exec w (pre' ++ s :: post)
                (recordStage t (exec t.agent t.task (mkContext w t.name st)) st)).2).getLast?
            = (runStages exec w (pre' ++ s :: post)
                (recordStage t (exec t.agent t.task (mkContext w t.name st)) st)).2.getLast? := by
              rw [show (Ev.invoke t.name :: Ev.record t.name ::
                Ev.save (recordStage t (exec t.agent t.task (mkContext w t.name st)) st) ::
                (runStages exec w (pre' ++ s :: post)
                  (recordStage t (exec t.agent t.task (mkContext w t.name st)) st)).2)
                = [Ev.invoke t.name, Ev.record t.name,
                   Ev.save (recordStage t (exec t.agent t.task (mkContext w t.name st)) st)] ++
                  (runStages exec w (pre' ++ s :: post)
                    (recordStage t (exec t.agent t.task (mkContext w t.name st)) st)).2 from rfl]
              exact List.getLast?_append_of_ne_nil _ hne
          _ = some (Ev.save (runStages exec w (pre' ++ s :: post)
                (recordStage t (exec t.agent t.task (mkContext w t.name st)) st)).1) := ih3
      · intro n hne hnp
        have hnp' : n ≠ t.name ∧ n ∉ pre'.map StageSpec.name := by
          simpa [not_or] using hnp
        have := ih4 n hne hnp'.2
        simp only [List.mem_cons, not_or]
        constructor
        · exact ⟨by simp [hnp'.1], by simp, by simp, this.1⟩
        · exact ⟨by simp, by simp [hnp'.1], by simp, this.2⟩

/-- Core completion argument: when no critical stage of `L` can report an
error, the run completes, and every stage of `L` is invoked and leaves a
recorded entry. -/
theorem runStages_complete (exec : String → String → Ctx → AgentOutput)
    (w : String) :
    ∀ (L : List StageSpec) (st : WfState),
      (∀ t ∈ L, t.critical.getD true = true →
        ∀ ctx, (exec t.agent t.task ctx).status ≠ "error") →
      (runStages exec w L st).1.status = "completed" ∧
      ∀ t ∈ L, t.name ∈ keys (runStages exec w L st).1.stages ∧
        Ev.invoke t.name ∈ (runStages exec w L st).2 ∧
        Ev.record t.name ∈ (runStages exec w L st).2 := by
  intro L
  induction L with
  | nil =>
      intro st _
      exact ⟨rfl, by simp⟩
  | cons u rest ih =>
      intro st hL
      have hcond : ((exec u.agent u.task (mkContext w u.name st)).status == "error"
          && u.critical.getD true) = false := by
        rcases Bool.eq_false_or_eq_true
            ((exec u.agent u.task (mkContext w u.name st)).status == "error") with hs | hs
        · have hserr : (exec u.agent u.task (mkContext w u.name st)).status = "error" :=
            beq_iff_eq.mp hs
          have hc : u.critical.getD true = false := by
            rcases Bool.eq_false_or_eq_true (u.critical.getD true) with hc | hc
            · exact absurd hserr (hL u (List.mem_cons_self u rest) hc _)
            · exact hc
          simp [hc]
        · simp [hs]
      obtain ⟨ih1, ih2⟩ :=
        ih (recordStage u (exec u.agent u.task (mkContext w u.name st)) st)
          (fun t ht => hL t (List.mem_cons_of_mem u ht))
      rw [runStages_cons_continue exec w u rest st hcond]
      refine ⟨ih1, ?_⟩
      intro t ht
      rcases List.mem_cons.mp ht with h | h
      · subst h
        refine ⟨?_, by simp, by simp⟩
        have hmem : t.name ∈
            keys (recordStage t (exec t.agent t.task (mkContext w t.name st)) st).stages := by
          simp only [recordStage]
          exact mem_keys_dictInsert_self t.name _ st.stages
        exact runStages_keys_mono exec w rest _ t.name hmem
      · obtain ⟨m1, m2, m3⟩ := ih2 t h
        exact ⟨m1, by simp [m2], by simp [m3]⟩

/-- Halting property of `run_workflow`, for a criticality flag already in
`getD` form; shared by the explicit-flag and omitted-flag claims. -/
theorem run_workflow_halt_general (exec : String → String → Ctx → AgentOutput)
    (wname wid : String) (pre post : List StageSpec) (s : StageSpec)
    (hnodup : ((pre ++ s :: post).map StageSpec.name).Nodup)
    (hpre : ∀ t ∈ pre, t.critical.getD true = true →
      ∀ ctx, (exec t.agent t.task ctx).status ≠ "error")
    (hcrit : s.critical.getD true = true)
    (herr : ∀ ctx, (exec s.agent s.task ctx).status = "error") :
    (run_workflow exec wname wid (pre ++ s :: post)).1.status = "failed" ∧
    countKey s.name (run_workflow exec wname wid (pre ++ s :: post)).1.stages = 1 ∧
    (run_workflow exec wname wid (pre ++ s :: post)).2.getLast? =
      some (Ev.save (run_workflow exec wname wid (pre ++ s :: post)).1) ∧
    ∀ t ∈ post,
      Ev.invoke t.name ∉ (run_workflow exec wname wid (pre ++ s :: post)).2 ∧
      Ev.record t.name ∉ (run_workflow exec wname wid (pre ++ s :: post)).2 := by
  have hmap : (pre ++ s :: post).map StageSpec.name
      = pre.map StageSpec.name ++ s.name :: post.map StageSpec.name := by
    simp
  rw [hmap, List.nodup_append] at hnodup
  obtain ⟨_, h₂, hdisj⟩ := hnodup
  have hs_pre : s.name ∉ pre.map StageSpec.name :=
    fun hin => hdisj hin (List.mem_cons_self _ _)
  have hpost : ∀ t ∈ post, t.name ≠ s.name ∧ t.name ∉ pre.map StageSpec.name := by
    intro t ht
    refine ⟨?_, ?_⟩
    · intro he
      exact (List.nodup_cons.mp h₂).1 (he ▸ List.mem_map_of_mem StageSpec.name ht)
    · intro hin
      exact hdisj hin (List.mem_cons_of_mem _ (List.mem_map_of_mem StageSpec.name ht))
  obtain ⟨c1, c2, c3, c4⟩ := runStages_halt exec wname s post hcrit herr pre
    (initState wid) hpre (by simp [initState, keys]) hs_pre
  exact ⟨c1, c2, c3, fun t ht => c4 t.name (hpost t ht).1 (hpost t ht).2⟩

/-- C1: in a run whose stage sequence is `pre ++ s :: post`, where the
stages have distinct names, no critical stage of `pre` can report an
error, `s` is critical and its executor invocation always reports an
error, the engine ends with `status="failed"`, records exactly one
StageResult for `s`, persists the failed state as its last persistence,
and never invokes or records any stage of `post`. -/
theorem run_workflow_halts_on_critical_error
    (exec : String → String → Ctx → AgentOutput)
    (wname wid : String) (pre post : List StageSpec) (s : StageSpec)
    (hnodup : ((pre ++ s :: post).map StageSpec.name).Nodup)
    (hpre : ∀ t ∈ pre, t.critical.getD true = true →
      ∀ ctx, (exec t.agent t.task ctx).status ≠ "error")
    (hcrit : s.critical = some true)
    (herr : ∀ ctx, (exec s.agent s.task ctx).status = "error") :
    (run_workflow exec wname wid (pre ++ s :: post)).1.status = "failed" ∧
    countKey s.name (run_workflow exec wname wid (pre ++ s :: post)).1.stages = 1 ∧
    (run_workflow exec wname wid (pre ++ s :: post)).2.getLast? =
      some (Ev.save (run_workflow exec wname wid (pre ++ s :: post)).1) ∧
    ∀ t ∈ post,
      Ev.invoke t.name ∉ (run_workflow exec wname wid (pre ++ s :: post)).2 ∧
      Ev.record t.name ∉ (run_workflow exec wname wid (pre ++ s :: post)).2 :=
  run_workflow_halt_general exec wname wid pre post s hnodup hpre
    (by rw [hcrit]; rfl) herr

theorem run_workflow_halts_on_critical_error_witness :
    (run_workflow exErr "wf" "w1" ([] ++ stA :: [stB, stC])).1.status = "failed" ∧
    countKey stA.name (run_workflow exErr "wf" "w1" ([] ++ stA :: [stB, stC])).1.stages = 1 ∧
    (run_workflow exErr "wf" "w1" ([] ++ stA :: [stB, stC])).2.getLast? =
      some (Ev.save (run_workflow exErr "wf" "w1" ([] ++ stA :: [stB, stC])).1) ∧
    ∀ t ∈ [stB, stC],
      Ev.invoke t.name ∉ (run_workflow exErr "wf" "w1" ([] ++ stA :: [stB, stC])).2 ∧
      Ev.record t.name ∉ (run_workflow exErr "wf" "w1" ([] ++ stA :: [stB, stC])).2 :=
  run_workflow_halts_on_critical_error exErr "wf" "w1" [] [stB, stC] stA
    (by decide) (by simp) rfl (fun _ => rfl)

/-- C9: a stage whose spec omits the `critical` key entirely is treated
as critical — with the same hypotheses as the halting property but
`s.critical = none`, the run fails, records `s` once, persists, and
never reaches the later stages. -/
theorem omitted_critical_defaults_to_true
    (exec : String → String → Ctx → AgentOutput)
    (wname wid : String) (pre post : List StageSpec) (s : StageSpec)
    (hnodup : ((pre ++ s :: post).map StageSpec.name).Nodup)
    (hpre : ∀ t ∈ pre, t.critical.getD true = true →
      ∀ ctx, (exec t.agent t.task ctx).status ≠ "error")
    (homit : s.critical = none)
    (herr : ∀ ctx, (exec s.agent s.task ctx).status = "error") :
    (run_workflow exec wname wid (pre ++ s :: post)).1.status = "failed" ∧
    countKey s.name (run_workflow exec wname wid (pre ++ s :: post)).1.stages = 1 ∧
    (run_workflow exec wname wid (pre ++ s :: post)).2.getLast? =
      some (Ev.save (run_workflow exec wname wid (pre ++ s :: post)).1) ∧
    ∀ t ∈ post,
      Ev.invoke t.name ∉ (run_workflow exec wname wid (pre ++ s :: post)).2 ∧
      Ev.record t.name ∉ (run_workflow exec wname wid (pre ++ s :: post)).2 :=
  run_workflow_halt_general exec wname wid pre post s hnodup hpre
    (by rw [homit]; rfl) herr

theorem omitted_critical_defaults_to_true_witness :
    (run_workflow exErr "wf" "w2" ([] ++ stA9 :: [stB])).1.status = "failed" ∧
    countKey stA9.name (run_workflow exErr "wf" "w2" ([] ++ stA9 :: [stB])).1.stages = 1 ∧
    (run_workflow exErr "wf" "w2" ([] ++ stA9 :: [stB])).2.getLast? =
      some (Ev.save (run_workflow exErr "wf" "w2" ([] ++ stA9 :: [stB])).1) ∧
    ∀ t ∈ [stB],
      Ev.invoke t.name ∉ (run_workflow exErr "wf" "w2" ([] ++ stA9 :: [stB])).2 ∧
      Ev.record t.name ∉ (run_workflow exErr "wf" "w2" ([] ++ stA9 :: [stB])).2 :=
  omitted_critical_defaults_to_true exErr "wf" "w2" [] [stB] stA9
    (by decide) (by simp) rfl (fun _ => rfl)

/-- C4: only a critical-stage error escalates.  If no critical stage of
the sequence can report an error — non-critical stages may error and any
stage may warn — then every stage is invoked and leaves a recorded
StageResult, and the final status is "completed". -/
theorem run_workflow_continues_past_noncritical_error
    (exec : String → String → Ctx → AgentOutput)
    (wname wid : String) (L : List StageSpec)
    (hnoerr : ∀ t ∈ L, t.critical.getD true = true →
      ∀ ctx, (exec t.agent t.task ctx).status ≠ "error") :
    (run_workflow exec wname wid L).1.status = "completed" ∧
    ∀ t ∈ L, t.name ∈ keys (run_workflow exec wname wid L).1.stages ∧
      Ev.invoke t.name ∈ (run_workflow exec wname wid L).2 ∧
      Ev.record t.name ∈ (run_workflow exec wname wid L).2 :=
  runStages_complete exec wname L (initState wid) hnoerr

theorem run_workflow_continues_past_noncritical_error_witness :
    (run_workflow exMixed "wf" "w3" [stN, stB]).1.status = "completed" ∧
    ∀ t ∈ [stN, stB], t.name ∈ keys (run_workflow exMixed "wf" "w3" [stN, stB]).1.stages ∧
      Ev.invoke t.name ∈ (run_workflow exMixed "wf" "w3" [stN, stB]).2 ∧
      Ev.record t.name ∈ (run_workflow exMixed "wf" "w3" [stN, stB]).2 :=
  run_workflow_continues_past_noncritical_error exMixed "wf" "w3" [stN, stB]
    (by
      intro t ht hc ctx
      rcases List.mem_cons.mp ht with h | h
      · subst h; simp [stN] at hc
      · rcases List.mem_cons.mp h with h | h
        · subst h; simp [exMixed, stB]
        · simp at h)

/-- C2 counterexample: the first deployment stage declares a 600-second
timeout, yet a 400-second execution — well within that declared bound —
is cut off and synthesized into a timeout-error record, whose summary is
also not the claimed string. -/
theorem execute_agent_ignores_stage_timeout :
    (get_deployment_workflow.stages.head?.map StageSpec.timeout = some 600) ∧
    (execute_agent "dir" "nephio-infrastructure-agent" "provision"
        ⟨400, "done"⟩ LoadResult.yamlError).output = timeoutRecord ∧
    400 < 600 ∧
    timeoutRecord = PyVal.dict [("status", PyVal.str "error"),
      ("summary", PyVal.str "Agent execution timed out after 5 minutes")] ∧
    "Agent execution timed out after 5 minutes" ≠ "Agent execution timed out" :=
  ⟨rfl, rfl, by decide, rfl, by decide⟩

/-- C2 (amended): every executor invocation is bounded by the fixed
300-second subprocess timeout, independent of the stage's declared
timeout; on expiry a single invocation (no retry) yields the synthesized
record with `status="error"` and summary "Agent execution timed out
after 5 minutes", and no raw-output file is written. -/
theorem execute_agent_fixed_timeout (d a tk : String) (proc : ProcRun)
    (load : LoadResult) (h : subprocessTimeout < proc.duration) :
    execute_agent d a tk proc load =
      { invocations := 1, ops := [], output := timeoutRecord } ∧
    ∀ load₂ : LoadResult, (execute_agent d a tk proc load₂).invocations = 1 := by
  refine ⟨by simp [execute_agent, h], ?_⟩
  intro load₂
  by_cases h₂ : subprocessTimeout < proc.duration <;> simp [execute_agent, h₂]

theorem execute_agent_fixed_timeout_witness :
    execute_agent "dir" "agentA" "taskA" ⟨301, "late"⟩ LoadResult.yamlError =
      { invocations := 1, ops := [], output := timeoutRecord } ∧
    ∀ load₂ : LoadResult,
      (execute_agent "dir" "agentA" "taskA" ⟨301, "late"⟩ load₂).invocations = 1 :=
  execute_agent_fixed_timeout "dir" "agentA" "taskA" ⟨301, "late"⟩
    LoadResult.yamlError (by decide)

/-- C3: on output that loads as a non-mapping value without membership
support — `yaml.safe_load` returns `None` for empty text — the
required-field check `field in output` raises `TypeError`, which the
parser's own handler (which catches only `yaml.YAMLError`) misses; the
generic executor handler then reports `status="error"`, not the
synthetic `status="warning"` record with the preserved raw text. -/
theorem parser_error_on_none_output :
    parse_agent_output (LoadResult.ok PyVal.pyNone) "" =
      Except.error "argument of type NoneType is not iterable" ∧
    execute_agent_parsed (LoadResult.ok PyVal.pyNone) "" =
      PyVal.dict [("status", PyVal.str "error"),
        ("summary", PyVal.str
          "Failed to execute agent: argument of type NoneType is not iterable")] ∧
    "error" ≠ "warning" :=
  ⟨rfl, rfl, by decide⟩

theorem fsLookup_dictInsertS_self (p v : String) (fs : FS) :
    fsLookup p (dictInsertS p v fs) = some v := by
  induction fs with
  | nil => simp [dictInsertS, fsLookup]
  | cons q rest ih =>
      by_cases hq : q.1 = p
      · have hk : (q.1 == p) = true := beq_iff_eq.mpr hq
        simp [dictInsertS, hk, fsLookup]
      · have hk : (q.1 == p) = false := beq_eq_false_iff_ne.mpr hq
        simp [dictInsertS, hk, fsLookup, ih]

/-- C5 counterexample: saving over an existing nonempty snapshot exposes
an intermediate empty file to a concurrent reader (the observable
contents at the state path are old, then empty, then new), and no
operation of `save_state` is a rename — there is no
write-temp-then-rename step. -/
theorem save_state_not_atomic :
    observables [(statePath "w1", "old")] (save_stateOps (initState "w1"))
        (statePath "w1") =
      ["old", "", serializeState (initState "w1")] ∧
    ¬ (∀ c ∈ observables [(statePath "w1", "old")] (save_stateOps (initState "w1"))
        (statePath "w1"), c = "old" ∨ c = serializeState (initState "w1")) ∧
    ∀ op ∈ save_stateOps (initState "w1"), op.isRename = false := by
  refine ⟨by decide, by decide, by decide⟩

/-- C5 (amended): `save_state` serializes the entire state to the single
location keyed by `workflow_id`, replacing the previous snapshot by a
direct truncate-then-write; the reader-observable contents are the old
snapshot, then the empty truncated file, then the full new
serialization. -/
theorem save_state_direct_overwrite (st : WfState) (fs : FS) :
    save_stateOps st = [FileOp.openTrunc (statePath st.workflow_id),
      FileOp.writeAll (statePath st.workflow_id) (serializeState st)] ∧
    observables fs (save_stateOps st) (statePath st.workflow_id) =
      [(fsLookup (statePath st.workflow_id) fs).getD "", "", serializeState st] := by
  refine ⟨rfl, ?_⟩
  simp [observables, save_stateOps, List.scanl, applyOp, fsLookup_dictInsertS_self]

/-- C6 counterexample: the built-in troubleshooting workflow has two
distinct stages ("diagnosis" and "verification") whose raw-output files
coincide, because the file name depends only on the agent
("monitoring-analytics-agent" runs both stages). -/
theorem raw_output_file_not_per_stage :
    ((get_troubleshooting_workflow.stages.get? 0).map StageSpec.name ≠
     (get_troubleshooting_workflow.stages.get? 3).map StageSpec.name) ∧
    ((get_troubleshooting_workflow.stages.get? 0).map
        (fun s => raw_output_file "dir" s.agent) =
     (get_troubleshooting_workflow.stages.get? 3).map
        (fun s => raw_output_file "dir" s.agent)) ∧
    ((get_troubleshooting_workflow.stages.get? 0).map
        (fun s => raw_output_file "dir" s.agent) =
      some "dir/monitoring-analytics-agent-output.txt") := by
  refine ⟨by decide, by decide, by decide⟩

theorem raw_output_file_inj (d a₁ a₂ : String)
    (h : raw_output_file d a₁ = raw_output_file d a₂) : a₁ = a₂ := by
  have hd : ((d ++ "/").data ++ a₁.data) ++ "-output.txt".data
      = ((d ++ "/").data ++ a₂.data) ++ "-output.txt".data := by
    have := congrArg String.data h
    simpa [raw_output_file, String.data_append] using this
  have h₁ : (d ++ "/").data ++ a₁.data = (d ++ "/").data ++ a₂.data :=
    (List.append_inj' hd rfl).1
  have h₂ : a₁.data = a₂.data := by
    have h3 := congrArg (List.drop (d ++ "/").data.length) h₁
    rwa [List.drop_left, List.drop_left] at h3
  exact String.ext h₂

/-- C6 (amended): when the invocation returns (does not time out), the
full raw stdout is written to the per-agent file
`state_dir/{agent}-output.txt` regardless of the parse outcome; the file
name is injective in the agent, so stages run by distinct agents get
distinct files, while stages sharing an agent share one file. -/
theorem raw_output_file_per_agent (d a₁ a₂ t₁ t₂ : String) (proc : ProcRun)
    (load₁ load₂ : LoadResult) (h : ¬ subprocessTimeout < proc.duration) :
    FileOp.writeAll (raw_output_file d a₁) proc.stdout ∈
      (execute_agent d a₁ t₁ proc load₁).ops ∧
    (execute_agent d a₁ t₁ proc load₁).ops = (execute_agent d a₁ t₂ proc load₂).ops ∧
    (raw_output_file d a₁ = raw_output_file d a₂ ↔ a₁ = a₂) := by
  refine ⟨by simp [execute_agent, h], by simp [execute_agent, h], ?_, ?_⟩
  · exact raw_output_file_inj d a₁ a₂
  · intro he; rw [he]

theorem raw_output_file_per_agent_witness :
    FileOp.writeAll (raw_output_file "dir" "agA") "hello" ∈
      (execute_agent "dir" "agA" "t1" ⟨10, "hello"⟩ LoadResult.yamlError).ops ∧
    (execute_agent "dir" "agA" "t1" ⟨10, "hello"⟩ LoadResult.yamlError).ops =
      (execute_agent "dir" "agA" "t2" ⟨10, "hello"⟩ (LoadResult.ok PyVal.pyNone)).ops ∧
    (raw_output_file "dir" "agA" = raw_output_file "dir" "agB" ↔ "agA" = "agB") :=
  raw_output_file_per_agent "dir" "agA" "agB" "t1" "t2" ⟨10, "hello"⟩
    LoadResult.yamlError (LoadResult.ok PyVal.pyNone) (by decide)

/-- C8 counterexample: a stage-3 agent declares a hand-off to the
stage-0 agent "security-compliance-agent" — a violation under the
claimed rule (target stage not strictly greater, target not the terminal
agent, source not exempt) — yet the validator returns the empty list,
because the source additionally exempts any target whose canonical stage
is 0. -/
theorem progression_ignores_stage_zero_target :
    validate_workflow_progression zeroTargetTbl = [] ∧
    specViolation zeroTargetEntry ∧
    zeroTargetEntry ∈ zeroTargetTbl :=
  ⟨rfl, by decide, by decide⟩

theorem stageViolation_eq_amended (p : String × Agent) :
    stageViolation p = if amendedViolation p then some (vioMsg p) else none := by
  rcases hp : p.2.hands_off_to with _ | t
  · have hA : ¬ amendedViolation p := by
      rintro ⟨t', ht', -⟩
      rw [hp] at ht'
      cases ht'
    simp [stageViolation, hp, hA]
  · by_cases hE : t = "" ∨ t = "null"
    · have hb : (t == "" || t == "null") = true := by
        rcases hE with h | h <;> simp [h]
      have hA : ¬ amendedViolation p := by
        rintro ⟨t', ht', h1, h2, -⟩
        rw [hp] at ht'
        cases ht'
        rcases hE with h | h
        exacts [h1 h, h2 h]
      simp [stageViolation, hp, hb, hA]
    · push_neg at hE
      have hb : (t == "" || t == "null") = false := by simp [hE.1, hE.2]
      by_cases hN : p.1 = "oran-nephio-orchestrator-agent" ∨
          p.1 = "security-compliance-agent"
      · have hb2 : (p.1 == "oran-nephio-orchestrator-agent" ||
            p.1 == "security-compliance-agent") = true := by
          rcases hN with h | h <;> simp [h]
        have hA : ¬ amendedViolation p := by
          rintro ⟨t', ht', _, _, h3, h4, -⟩
          rw [hp] at ht'
          cases ht'
          rcases hN with h | h
          exacts [h3 h, h4 h]
        simp [stageViolation, hp, hb, hb2, hA]
      · push_neg at hN
        have hb2 : (p.1 == "oran-nephio-orchestrator-agent" ||
            p.1 == "security-compliance-agent") = false := by
          simp [hN.1, hN.2]
        by_cases hC : canonicalStage t ≠ 0 ∧ canonicalStage t ≤ canonicalStage p.1 ∧
            t ≠ "testing-validation-agent"
        · have hA : amendedViolation p :=
            ⟨t, hp, hE.1, hE.2, hN.1, hN.2, hC.1, hC.2.1, hC.2.2⟩
          simp [stageViolation, hp, hb, hb2, hC, hA, vioMsg]
        · have hA : ¬ amendedViolation p := by
            rintro ⟨t', ht', _, _, _, _, h5, h6, h7⟩
            rw [hp] at ht'
            cases ht'
            exact hC ⟨h5, h6, h7⟩
          simp [stageViolation, hp, hb, hb2, hC, hA]

/-- C8 (amended): the violation list is exactly the entries satisfying
the amended rule — a declared (truthy, non-"null") hand-off from a
source not named orchestrator or security, to a target whose canonical
stage is nonzero, not strictly greater than the source's, and which is
not the terminal agent; all violations are returned, in table order.  In
particular stage 3 → stage 2 is reported, stage 3 → stage 5 is not, and
a table with two violations yields both messages. -/
theorem validate_workflow_progression_amended :
    (∀ agents : AgentTable, validate_workflow_progression agents =
      agents.filterMap fun p =>
        if amendedViolation p then some (vioMsg p) else none) ∧
    validate_workflow_progression down2Tbl =
      [progressionError "configuration-management-agent"
        "oran-nephio-dep-doctor-agent" 3 2] ∧
    validate_workflow_progression up5Tbl = [] ∧
    validate_workflow_progression twoVioTbl =
      [progressionError "configuration-management-agent"
        "oran-nephio-dep-doctor-agent" 3 2,
       progressionError "oran-network-functions-agent"
        "configuration-management-agent" 4 3] := by
  refine ⟨?_, by decide, by decide, by decide⟩
  intro agents
  unfold validate_workflow_progression
  induction agents with
  | nil => rfl
  | cons q rest ih =>
      simp only [List.filterMap_cons, stageViolation_eq_amended q]
      by_cases hq : amendedViolation q
      · simp [hq, ih]
      · simp [hq, ih]

theorem validate_workflow_progression_amended_witness :
    validate_workflow_progression zeroTargetTbl =
      zeroTargetTbl.filterMap fun p =>
        if amendedViolation p then some (vioMsg p) else none :=
  validate_workflow_progression_amended.1 zeroTargetTbl

theorem lookupA_mem {agents : AgentTable} {name : String} {a : Agent}
    (h : lookupA name agents = some a) : (name, a) ∈ agents := by
  induction agents with
  | nil => cases h
  | cons q rest ih =>
      by_cases hq : q.1 = name
      · have hk : (q.1 == name) = true := beq_iff_eq.mpr hq
        simp only [lookupA, hk, if_true, Option.some.injEq] at h
        exact List.mem_cons.mpr (Or.inl (by rw [← hq, ← h]))
      · have hk : (q.1 == name) = false := beq_eq_false_iff_ne.mpr hq
        simp only [lookupA, hk, Bool.false_eq_true, if_false] at h
        exact List.mem_cons_of_mem _ (ih h)

theorem succOf_mem_tableNames (agents : AgentTable) {name nxt : String}
    (h : succOf agents name = some nxt) : nxt ∈ tableNames agents := by
  rcases hl : lookupA name agents with _ | a
  · simp [succOf, hl] at h
  · rcases hh : a.hands_off_to with _ | t
    · simp [succOf, hl, hh] at h
    · by_cases ht : t = ""
      · simp [succOf, hl, hh, ht] at h
      · have hb : (t == "") = false := beq_eq_false_iff_ne.mpr ht
        have hnx : t = nxt := by simpa [succOf, hl, hh, hb] using h
        subst hnx
        exact List.mem_append_right _
          (List.mem_filterMap.mpr ⟨(name, a), lookupA_mem hl, hh⟩)

theorem dfs_ne_fuelOut (agents : AgentTable) :
    ∀ (fuel : Nat) (v p : List String) (name : String),
      name ∈ tableNames agents →
      ((tableNames agents).toFinset \ v.toFinset).card < fuel →
      (dfs agents fuel v p name).2 ≠ DfsRes.fuelOut := by
  intro fuel
  induction fuel with
  | zero => intro v p name _ hlt; exact absurd hlt (Nat.not_lt_zero _)
  | succ n ih =>
      intro v p name hU hlt
      by_cases hp : name ∈ p
      · simp [dfs, hp]
      · by_cases hv : name ∈ v
        · simp [dfs, hp, hv]
        · rcases hs : succOf agents name with _ | nxt
          · simp [dfs, hp, hv, hs]
          · have hU' : nxt ∈ tableNames agents := succOf_mem_tableNames agents hs
            have hmemS : name ∈ (tableNames agents).toFinset \ v.toFinset :=
              Finset.mem_sdiff.mpr ⟨List.mem_toFinset.mpr hU,
                fun hc => hv (List.mem_toFinset.mp hc)⟩
            have hS : (tableNames agents).toFinset \ (name :: v).toFinset =
                ((tableNames agents).toFinset \ v.toFinset).erase name := by
              ext x
              simp only [List.toFinset_cons, Finset.mem_sdiff, Finset.mem_erase,
                Finset.mem_insert]
              tauto
            have hcard : ((tableNames agents).toFinset \ (name :: v).toFinset).card < n := by
              rw [hS, Finset.card_erase_of_mem hmemS]
              have hpos : 0 < ((tableNames agents).toFinset \ v.toFinset).card :=
                Finset.card_pos.mpr ⟨name, hmemS⟩
              have hle : ((tableNames agents).toFinset \ v.toFinset).card ≤ n :=
                Nat.lt_succ_iff.mp hlt
              omega
            have := ih (name :: v) (p ++ [name]) nxt hU' hcard
            simpa [dfs, hp, hv, hs] using this

theorem detectGo_ne_fuelOut (agents : AgentTable) :
    ∀ (ks v : List String), (∀ k ∈ ks, k ∈ tableNames agents) →
      detectGo agents ks v ≠ DfsRes.fuelOut := by
  intro ks
  induction ks with
  | nil => intro v _; simp [detectGo]
  | cons k ks ih =>
      intro v hks
      by_cases hkv : k ∈ v
      · simpa [detectGo, hkv] using
          ih v (fun x hx => hks x (List.mem_cons_of_mem _ hx))
      · have hk : k ∈ tableNames agents := hks k (List.mem_cons_self _ _)
        have hcard : ((tableNames agents).toFinset \ v.toFinset).card < dfsFuel agents :=
          Nat.lt_succ_of_le (Finset.card_le_card Finset.sdiff_subset)
        have hdfs := dfs_ne_fuelOut agents (dfsFuel agents) v [] k hk hcard
        rcases hres : dfs agents (dfsFuel agents) v [] k with ⟨v₁, r⟩
        cases r with
        | found c => simp [detectGo, hkv, hres]
        | done =>
            simpa [detectGo, hkv, hres] using
              ih v₁ (fun x hx => hks x (List.mem_cons_of_mem _ hx))
        | fuelOut => rw [hres] at hdfs; simp at hdfs

/-- C10: the cycle detector terminates on every finite table — the
embedded traversal never exhausts the supplied fuel — a dangling edge
(to a name absent from the table) is treated as terminal, marking the
name visited and returning, and the visited set never acquires a
duplicate, i.e. each name is fully explored at most once. -/
theorem detect_circular_dependency_terminates :
    (∀ agents : AgentTable,
      detectGo agents (agents.map (·.1)) [] ≠ DfsRes.fuelOut) ∧
    (∀ (agents : AgentTable) (fuel : Nat) (v p : List String) (name : String),
      lookupA name agents = none → name ∉ p → name ∉ v →
      dfs agents (fuel + 1) v p name = (name :: v, DfsRes.done)) ∧
    (∀ (agents : AgentTable) (fuel : Nat) (v p : List String) (name : String),
      v.Nodup → ((dfs agents fuel v p name).1).Nodup) := by
  refine ⟨?_, ?_, ?_⟩
  · intro agents
    exact detectGo_ne_fuelOut agents (agents.map (·.1)) []
      (fun k hk => List.mem_append_left _ hk)
  · intro agents fuel v p name hl hp hv
    simp [dfs, hp, hv, succOf, hl]
  · intro agents fuel
    induction fuel with
    | zero => intro v p name h; simpa [dfs] using h
    | succ n ih =>
        intro v p name h
        by_cases hp : name ∈ p
        · simpa [dfs, hp] using h
        · by_cases hv : name ∈ v
          · simpa [dfs, hp, hv] using h
          · rcases hs : succOf agents name with _ | nxt
            · have hnd : (name :: v).Nodup := List.nodup_cons.mpr ⟨hv, h⟩
              simpa [dfs, hp, hv, hs] using hnd
            · have := ih (name :: v) (p ++ [name]) nxt
                (List.nodup_cons.mpr ⟨hv, h⟩)
              simpa [dfs, hp, hv, hs] using this

theorem detect_circular_dependency_terminates_witness :
    detectGo danglingTbl (danglingTbl.map (·.1)) [] ≠ DfsRes.fuelOut ∧
    dfs danglingTbl 1 [] [] "Ghost" = (["Ghost"], DfsRes.done) ∧
    ((dfs danglingTbl (dfsFuel danglingTbl) [] [] "A").1).Nodup :=
  ⟨detect_circular_dependency_terminates.1 danglingTbl,
   detect_circular_dependency_terminates.2.1 danglingTbl 0 [] [] "Ghost"
     (by decide) (by decide) (by decide),
   detect_circular_dependency_terminates.2.2 danglingTbl (dfsFuel danglingTbl)
     [] [] "A" (by decide)⟩

theorem dfs_found_isCycle (agents : AgentTable) :
    ∀ (fuel : Nat) (v p : List String) (name : String) (c : List String),
      List.Chain' (fun a b => succOf agents a = some b) (p ++ [name]) →
      (dfs agents fuel v p name).2 = DfsRes.found c →
      isCycleOf agents c := by
  intro fuel
  induction fuel with
  | zero => intro v p name c _ h; simp [dfs] at h
  | succ n ih =>
      intro v p name c hch h
      by_cases hp : name ∈ p
      · have hidx : p.indexOf name < p.length := List.indexOf_lt_length.mpr hp
        have hc : c = p.drop (p.indexOf name) ++ [name] := by
          simp only [dfs, hp, if_true, DfsRes.found.injEq] at h
          exact h.symm
        have hget : p[p.indexOf name] = name := by
          have hg := List.indexOf_get (l := p) (a := name) hidx
          rwa [List.get_eq_getElem] at hg
        have hdrop : p.drop (p.indexOf name) = name :: p.drop (p.indexOf name + 1) := by
          rw [List.drop_eq_getElem_cons hidx, hget]
        have hchain : c.Chain' (fun a b => succOf agents a = some b) := by
          have h₁ : (p ++ [name]).drop (p.indexOf name) =
              p.drop (p.indexOf name) ++ [name] :=
            List.drop_append_of_le_length (le_of_lt hidx)
          have h₂ := hch.drop (p.indexOf name)
          rw [h₁] at h₂
          rw [hc]
          exact h₂
        have hhead : c.head? = some name := by
          rw [hc, hdrop]
          rfl
        have hlast : c.getLast? = some name := by
          rw [hc]
          exact List.getLast?_concat _
        refine ⟨?_, by rw [hhead, hlast], hchain⟩
        have : 1 ≤ (p.drop (p.indexOf name)).length := by
          rw [hdrop]; simp
        rw [hc]
        simp only [List.length_append, List.length_cons, List.length_nil]
        omega
      · by_cases hv : name ∈ v
        · simp [dfs, hp, hv] at h
        · rcases hs : succOf agents name with _ | nxt
          · simp [dfs, hp, hv, hs] at h
          · have hch' : List.Chain' (fun a b => succOf agents a = some b)
                ((p ++ [name]) ++ [nxt]) := by
              rw [List.chain'_append]
              refine ⟨hch, List.chain'_singleton _, ?_⟩
              intro x hx y hy
              rw [List.getLast?_concat] at hx
              simp only [Option.mem_def, Option.some.injEq] at hx
              simp only [List.head?_cons, Option.mem_def, Option.some.injEq] at hy
              rw [← hx, ← hy]
              exact hs
            have h' : (dfs agents n (name :: v) (p ++ [name]) nxt).2 = DfsRes.found c := by
              simpa [dfs, hp, hv, hs] using h
            exact ih (name :: v) (p ++ [name]) nxt c hch' h'

theorem detectGo_found_isCycle (agents : AgentTable) :
    ∀ (ks v c : List String),
      detectGo agents ks v = DfsRes.found c → isCycleOf agents c := by
  intro ks
  induction ks with
  | nil => intro v c h; simp [detectGo] at h
  | cons k ks ih =>
      intro v c h
      by_cases hkv : k ∈ v
      · rw [detectGo, if_pos hkv] at h
        exact ih v c h
      · rcases hres : dfs agents (dfsFuel agents) v [] k with ⟨v₁, r⟩
        cases r with
        | found c₁ =>
            have hc : c₁ = c := by
              rw [detectGo, if_neg hkv, hres] at h
              simpa using h
            have h2 : (dfs agents (dfsFuel agents) v [] k).2 = DfsRes.found c₁ := by
              rw [hres]
            exact hc ▸ dfs_found_isCycle agents (dfsFuel agents) v [] k c₁
              (by simp) h2
        | done =>
            rw [detectGo, if_neg hkv, hres] at h
            exact ih v₁ c h
        | fuelOut =>
            rw [detectGo, if_neg hkv, hres] at h
            cases h

/-- C7: the cycle detector is sound — whatever it returns is a genuine
cycle of the hand-off graph, written as the sub-path from the revisited
node back to itself (first and last entries coincide and consecutive
entries are declared hand-off edges); when no cycle exists it returns
none.  For the chain X → Y → Z → X it returns [X, Y, Z, X]; for
X → Y → Z → none it returns none. -/
theorem detect_circular_dependency_spec :
    detect_circular_dependency cycTbl = some ["X", "Y", "Z", "X"] ∧
    detect_circular_dependency chnTbl = none ∧
    ∀ (agents : AgentTable) (c : List String),
      detect_circular_dependency agents = some c → isCycleOf agents c := by
  refine ⟨by decide, by decide, ?_⟩
  intro agents c h
  unfold detect_circular_dependency at h
  rcases hres : detectGo agents (agents.map (·.1)) [] with c₁ | _ | _
  · rw [hres] at h
    simp only [Option.some.injEq] at h
    exact h ▸ detectGo_found_isCycle agents _ [] c₁ hres
  · rw [hres] at h; cases h
  · rw [hres] at h; cases h

theorem detect_circular_dependency_spec_witness :
    isCycleOf cycTbl ["X", "Y", "Z", "X"] :=
  detect_circular_dependency_spec.2.2 cycTbl ["X", "Y", "Z", "X"] (by decide)

end NephioSpec
